import Mathlib

/-!
Shallow embedding of the pointcloud schema-driven point/patch codec
(src/libpc/pc_api.h).  The repository source contains only the public
header: struct definitions and function declarations, with no function
bodies.  Structures are translated from the header; every function body
is modelled from the spec (spec.md), as its doc comment notes.

Doubles are idealized as exact rationals.  A point row is a buffer of
cells (one per byte of the schema layout): an integer-interpreted
dimension stores one little-endian base-256 digit per cell of its byte
range; an IEEE float dimension is idealized as storing its exact
rational raw value in the first cell of its byte range (IEEE rounding is
not modelled).  Wire buffers are plain lists of natural-number bytes.
-/

/-- Error kinds of the spec's error-handling design (section 7), plus the
EmptyInput and NoSpatialDimension kinds named in sections 4.2 and 4.3. -/
inductive PCError where
  | InvalidSchema
  | NotFound
  | OutOfRange
  | LengthMismatch
  | SchemaMismatch
  | ReadOnly
  | Truncated
  | InvalidHex
  | AllocationFailure
  | EmptyInput
  | NoSpatialDimension
deriving DecidableEq

/-- Modelled from the spec: the header does not define the interpretation
tag numbering, so tags 1..8 are int8, uint8, int16, uint16, int32,
uint32, int64, uint64; 9 is float64 (double); 10 is float32.  This
predicate: is the tag a signed integer type. -/
def pc_interp_signed (tag : ℕ) : Bool :=
  tag == 1 || tag == 3 || tag == 5 || tag == 7

/-- Modelled from the spec: is the tag one of the IEEE float types. -/
def pc_interp_is_float (tag : ℕ) : Bool :=
  tag == 9 || tag == 10

/-- Modelled from the spec: is the tag one of the eight integer types. -/
def pc_interp_is_int (tag : ℕ) : Bool :=
  decide (1 ≤ tag ∧ tag ≤ 8)

/-- PCDIMENSION from pc_api.h: cached in-memory dimension descriptor. -/
structure PCDIMENSION where
  name : String
  description : String
  position : ℕ
  size : ℕ
  byteoffset : ℕ
  interpretation : ℕ
  scale : ℚ
  offset : ℚ
  active : Bool
deriving DecidableEq, Inhabited

/-- PCSCHEMA from pc_api.h.  The namehash field (name-to-dimension
lookup acceleration) is out of the spec's core; name lookup is modelled
as a list search over dims. -/
structure PCSCHEMA where
  pcid : ℕ
  ndims : ℕ
  size : ℕ
  dims : List PCDIMENSION
  srid : ℕ
  x_position : ℤ
  y_position : ℤ
  compression : ℕ
deriving DecidableEq, Inhabited

/-- PCPOINT from pc_api.h: readonly flag, borrowed schema, one row-width
data buffer. -/
structure PCPOINT where
  readonly : Bool
  schema : PCSCHEMA
  data : List ℚ
deriving DecidableEq, Inhabited

/-- PCPATCH from pc_api.h: readonly flag, point count and capacity,
borrowed schema, bounding box, and the buffer of npoints consecutive
rows. -/
structure PCPATCH where
  readonly : Bool
  npoints : ℕ
  maxpoints : ℕ
  schema : PCSCHEMA
  xmin : ℚ
  xmax : ℚ
  ymin : ℚ
  ymax : ℚ
  data : List ℚ
deriving DecidableEq, Inhabited

/-- SERPOINT from pc_api.h: serialized point envelope
[size:uint32][pcid:uint32][payload]. -/
structure SERPOINT where
  size : ℕ
  pcid : ℕ
  data : List ℕ
deriving DecidableEq, Inhabited

/-- Modelled from the spec (4.1): bounds-checked dimension lookup by
ordinal position. -/
def pc_schema_get_dimension (s : PCSCHEMA) (dim : ℕ) : Option PCDIMENSION :=
  s.dims[dim]?

/-- Modelled from the spec (4.1): dimension lookup by name (the name
index is modelled as a list search). -/
def pc_schema_get_dimension_by_name (s : PCSCHEMA) (name : String) : Option PCDIMENSION :=
  s.dims.find? (fun d => d.name == name)

/-- Do the byte ranges of two dimensions not overlap. -/
def pc_dims_disjoint_b (a b : PCDIMENSION) : Bool :=
  decide (a.byteoffset + a.size ≤ b.byteoffset ∨ b.byteoffset + b.size ≤ a.byteoffset)

/-- Pairwise disjointness of all dimension byte ranges in a list. -/
def pc_dims_pairwise : List PCDIMENSION → Bool
  | [] => true
  | d :: rest => rest.all (fun e => pc_dims_disjoint_b d e) && pc_dims_pairwise rest

/-- Modelled from the spec (4.1, section 3): pure predicate re-checking
the structural schema invariants: dimension count matches, total size
positive, every dimension 1..8 bytes wide and inside the row, byte
ranges pairwise disjoint, ordinals contiguous from 0, and an X dimension
resolvable. -/
def pc_schema_is_valid (s : PCSCHEMA) : Bool :=
  decide (s.ndims = s.dims.length) &&
  decide (0 < s.size) &&
  s.dims.all (fun d => decide (1 ≤ d.size ∧ d.size ≤ 8 ∧ d.byteoffset + d.size ≤ s.size)) &&
  pc_dims_pairwise s.dims &&
  s.dims.enum.all (fun p => p.2.position == p.1) &&
  decide (0 ≤ s.x_position ∧ s.x_position < (s.ndims : ℤ))

/-- Round a rational to the nearest integer (half up), the fixed rounding
policy the spec chooses for writing doubles into integer dimensions. -/
def qround (q : ℚ) : ℤ := ⌊q + 1/2⌋

/-- Smallest raw value representable in w bytes with the given
signedness. -/
def intMinW (w : ℕ) (signed : Bool) : ℤ :=
  if signed then -(2 ^ (8 * w - 1)) else 0

/-- Largest raw value representable in w bytes with the given
signedness. -/
def intMaxW (w : ℕ) (signed : Bool) : ℤ :=
  if signed then 2 ^ (8 * w - 1) - 1 else 2 ^ (8 * w) - 1

/-- Saturate an integer to the representable range of w bytes with the
given signedness (the spec's overflow policy: saturate, never wrap). -/
def satClamp (v : ℤ) (w : ℕ) (signed : Bool) : ℤ :=
  max (intMinW w signed) (min (intMaxW w signed) v)

/-- Little-endian base-256 digits of a natural number, w cells. -/
def natToCells : ℕ → ℕ → List ℚ
  | 0, _ => []
  | w + 1, n => ((n % 256 : ℕ) : ℚ) :: natToCells w (n / 256)

/-- Value of a little-endian base-256 cell list. -/
def cellsToQ : List ℚ → ℚ
  | [] => 0
  | c :: rest => c + 256 * cellsToQ rest

/-- Modelled from the spec (4.2): encode one double into a dimension's
byte range.  Integer interpretations apply raw = round((v-offset)/scale),
saturate to the declared width, and store two's-complement base-256
digits; float interpretations store the exact raw value (idealized) in
the first cell. -/
def pc_dim_encode (d : PCDIMENSION) (v : ℚ) : List ℚ :=
  if pc_interp_is_float d.interpretation then
    (v - d.offset) / d.scale :: List.replicate (d.size - 1) 0
  else
    natToCells d.size
      ((satClamp (qround ((v - d.offset) / d.scale)) d.size
        (pc_interp_signed d.interpretation)).emod (2 ^ (8 * d.size))).toNat

/-- Modelled from the spec (4.2): reinterpret a dimension's cells as its
raw numeric value (two's complement for signed integers; idealized exact
value for floats). -/
def pc_dim_decode_raw (d : PCDIMENSION) (cells : List ℚ) : ℚ :=
  if pc_interp_is_float d.interpretation then cells.headD 0
  else
    let u := cellsToQ cells
    if pc_interp_signed d.interpretation && decide ((2 : ℚ) ^ (8 * d.size - 1) ≤ u) then
      u - 2 ^ (8 * d.size)
    else u

/-- Modelled from the spec (4.2): decode a dimension's cells and apply
the affine transform real = raw * scale + offset. -/
def pc_dim_decode (d : PCDIMENSION) (cells : List ℚ) : ℚ :=
  pc_dim_decode_raw d cells * d.scale + d.offset

/-- The cells of one dimension's byte range within a row buffer. -/
def pc_dim_slice (data : List ℚ) (d : PCDIMENSION) : List ℚ :=
  (data.drop d.byteoffset).take d.size

/-- Overwrite one dimension's byte range within a row buffer. -/
def pc_dim_write (data : List ℚ) (d : PCDIMENSION) (cells : List ℚ) : List ℚ :=
  data.take d.byteoffset ++ cells ++ data.drop (d.byteoffset + d.size)

/-- Modelled from the spec (4.2): allocate a zero-filled, owned, mutable
row of schema.size bytes. -/
def pc_point_make (s : PCSCHEMA) : PCPOINT :=
  { readonly := false, schema := s, data := List.replicate s.size 0 }

/-- Modelled from the spec (4.2): wrap an existing buffer read-only,
without copying. -/
def pc_point_from_data (s : PCSCHEMA) (data : List ℚ) : PCPOINT :=
  { readonly := true, schema := s, data := data }

/-- Modelled from the spec (4.2): wrap an existing buffer read-write,
without copying. -/
def pc_point_from_data_rw (s : PCSCHEMA) (data : List ℚ) : PCPOINT :=
  { readonly := false, schema := s, data := data }

/-- Write each value of vals through the matching dimension's encode,
dimensions and values taken in order. -/
def pc_write_values : List PCDIMENSION → List ℚ → List ℚ → List ℚ
  | [], _, dat => dat
  | d :: ds, vs, dat =>
      pc_write_values ds vs.tail (pc_dim_write dat d (pc_dim_encode d (vs.headD 0)))

/-- Modelled from the spec (4.2): build an owned row from exactly ndims
real values in dimension order; fails with LengthMismatch on wrong
arity. -/
def pc_point_from_double_array (s : PCSCHEMA) (array : List ℚ) (nelems : ℕ) :
    Except PCError PCPOINT :=
  if nelems = s.ndims ∧ array.length = nelems then
    Except.ok { readonly := false, schema := s,
                data := pc_write_values s.dims array (List.replicate s.size 0) }
  else Except.error PCError.LengthMismatch

/-- Modelled from the spec (4.2): read the dimension's bytes, reinterpret,
apply scale/offset; fails with OutOfRange on a bad index. -/
def pc_point_get_double_by_index (pt : PCPOINT) (idx : ℕ) : Except PCError ℚ :=
  match pt.schema.dims[idx]? with
  | some d => Except.ok (pc_dim_decode d (pc_dim_slice pt.data d))
  | none => Except.error PCError.OutOfRange

/-- Modelled from the spec (4.2): as by-index, selecting the dimension by
name; fails with NotFound. -/
def pc_point_get_double_by_name (pt : PCPOINT) (name : String) : Except PCError ℚ :=
  match pc_schema_get_dimension_by_name pt.schema name with
  | some d => Except.ok (pc_dim_decode d (pc_dim_slice pt.data d))
  | none => Except.error PCError.NotFound

/-- Modelled from the spec (4.2): write a double through the inverse
transform into the dimension's byte range; fails with ReadOnly on a
read-only view (leaving the point unchanged), OutOfRange on a bad index.
Returned C-style as the resulting point plus an optional error. -/
def pc_point_set_double_by_index (pt : PCPOINT) (idx : ℕ) (val : ℚ) :
    PCPOINT × Option PCError :=
  if pt.readonly then (pt, some PCError.ReadOnly)
  else
    match pt.schema.dims[idx]? with
    | some d => ({ pt with data := pc_dim_write pt.data d (pc_dim_encode d val) }, none)
    | none => (pt, some PCError.OutOfRange)

/-- Modelled from the spec (4.2): as by-index, selecting the dimension by
name; fails with NotFound. -/
def pc_point_set_double_by_name (pt : PCPOINT) (name : String) (val : ℚ) :
    PCPOINT × Option PCError :=
  if pt.readonly then (pt, some PCError.ReadOnly)
  else
    match pc_schema_get_dimension_by_name pt.schema name with
    | some d => ({ pt with data := pc_dim_write pt.data d (pc_dim_encode d val) }, none)
    | none => (pt, some PCError.NotFound)

/-- Modelled from the spec (4.2): convenience X accessor via the schema's
x_position; fails with NoSpatialDimension when X is not resolvable. -/
def pc_point_get_x (pt : PCPOINT) : Except PCError ℚ :=
  if 0 ≤ pt.schema.x_position ∧ pt.schema.x_position < (pt.schema.ndims : ℤ) then
    pc_point_get_double_by_index pt pt.schema.x_position.toNat
  else Except.error PCError.NoSpatialDimension

/-- Modelled from the spec (4.2): convenience Y accessor via the schema's
y_position; fails with NoSpatialDimension when Y is not resolvable. -/
def pc_point_get_y (pt : PCPOINT) : Except PCError ℚ :=
  if 0 ≤ pt.schema.y_position ∧ pt.schema.y_position < (pt.schema.ndims : ℤ) then
    pc_point_get_double_by_index pt pt.schema.y_position.toNat
  else Except.error PCError.NoSpatialDimension

/-- Modelled from the spec (4.2) and the header comment: freeing a point
releases the data only when the point is not readonly, and never touches
the referenced schema.  Modelled as yielding the buffer that gets
released. -/
def pc_point_free (pt : PCPOINT) : Option (List ℚ) :=
  if pt.readonly then none else some pt.data

/-- Modelled from the spec (4.3): create a new empty patch: zero points,
zero capacity, bounding box undefined (modelled as 0). -/
def pc_patch_make (s : PCSCHEMA) : PCPATCH :=
  { readonly := false, npoints := 0, maxpoints := 0, schema := s,
    xmin := 0, xmax := 0, ymin := 0, ymax := 0, data := [] }

/-- Evaluate f over every point of a list, propagating the first
failure. -/
def pc_mapExc (f : PCPOINT → Except PCError ℚ) : List PCPOINT → Except PCError (List ℚ)
  | [] => Except.ok []
  | p :: ps =>
    match f p with
    | Except.error e => Except.error e
    | Except.ok x =>
      match pc_mapExc f ps with
      | Except.error e => Except.error e
      | Except.ok xs => Except.ok (x :: xs)

/-- Modelled from the spec (4.3): bulk-build a patch from a point list:
copies each row into a fresh buffer and computes the bounding box as the
running min/max of each point's X/Y; fails with EmptyInput on an empty
list and SchemaMismatch when the points do not share the first point's
schema. -/
def pc_patch_make_from_points (pts : List PCPOINT) : Except PCError PCPATCH :=
  match pts with
  | [] => Except.error PCError.EmptyInput
  | p0 :: rest =>
    if rest.all (fun p => decide (p.schema = p0.schema)) then
      match pc_point_get_x p0 with
      | Except.error e => Except.error e
      | Except.ok x0 =>
        match pc_point_get_y p0 with
        | Except.error e => Except.error e
        | Except.ok y0 =>
          match pc_mapExc pc_point_get_x rest with
          | Except.error e => Except.error e
          | Except.ok xs =>
            match pc_mapExc pc_point_get_y rest with
            | Except.error e => Except.error e
            | Except.ok ys =>
              Except.ok
                { readonly := false,
                  npoints := (p0 :: rest).length, maxpoints := (p0 :: rest).length,
                  schema := p0.schema,
                  xmin := xs.foldl min x0, xmax := xs.foldl max x0,
                  ymin := ys.foldl min y0, ymax := ys.foldl max y0,
                  data := ((p0 :: rest).map PCPOINT.data).flatten }
    else Except.error PCError.SchemaMismatch

/-- Modelled from the spec (4.3): append one point to a read/write patch:
fails with ReadOnly or SchemaMismatch leaving the patch unchanged; on
success grows capacity geometrically, copies the row to the next slot,
bumps npoints, and updates the bounding box incrementally (the first
point initializes the box). -/
def pc_patch_add_point (c : PCPATCH) (p : PCPOINT) : PCPATCH × Option PCError :=
  if c.readonly then (c, some PCError.ReadOnly)
  else if decide (p.schema = c.schema) then
    match pc_point_get_x p, pc_point_get_y p with
    | Except.ok x, Except.ok y =>
        ({ c with
             npoints := c.npoints + 1,
             maxpoints := if c.npoints + 1 ≤ c.maxpoints then c.maxpoints
                          else max (2 * c.maxpoints) 1,
             data := c.data ++ p.data,
             xmin := if c.npoints = 0 then x else min c.xmin x,
             xmax := if c.npoints = 0 then x else max c.xmax x,
             ymin := if c.npoints = 0 then y else min c.ymin y,
             ymax := if c.npoints = 0 then y else max c.ymax y }, none)
    | _, _ => (c, some PCError.NoSpatialDimension)
  else (c, some PCError.SchemaMismatch)

/-- Incremental patch construction: fold pc_patch_add_point over a point
sequence starting from the empty patch of pc_patch_make. -/
def pc_patch_build (s : PCSCHEMA) (pts : List PCPOINT) : PCPATCH :=
  pts.foldl (fun a p => (pc_patch_add_point a p).1) (pc_patch_make s)

/-- Little-endian 4-byte encoding of a uint32 wire field. -/
def le32 (n : ℕ) : List ℕ :=
  [n % 256, n / 256 % 256, n / 256 ^ 2 % 256, n / 256 ^ 3 % 256]

/-- Wire form of a SERPOINT: [size:uint32][pcid:uint32][payload]. -/
def ser_point_serialize (sp : SERPOINT) : List ℕ :=
  le32 sp.size ++ le32 sp.pcid ++ sp.data

/-- Modelled from the spec (4.4): extract the pcid field of a serialized
point envelope; fails with Truncated when the buffer is shorter than the
8-byte minimum header. -/
def wkb_get_pcid (bytes : List ℕ) : Except PCError ℕ :=
  if bytes.length < 8 then Except.error PCError.Truncated
  else Except.ok
    (bytes.getD 4 0 + 256 * (bytes.getD 5 0 + 256 * (bytes.getD 6 0 + 256 * bytes.getD 7 0)))

/-- Modelled from the spec (4.4): locate the start of the raw dimension
payload of a serialized point envelope, as an offset into the same
buffer (no copy); fails with Truncated when the buffer is shorter than
the 8-byte minimum header. -/
def wkb_point_get_data_ptr (bytes : List ℕ) : Except PCError ℕ :=
  if bytes.length < 8 then Except.error PCError.Truncated
  else Except.ok 8

/-- Index permutation realizing endianness normalization: a byte inside
some dimension's field of some row maps to its mirror position within
that field; all other bytes stay put. -/
def pc_flip_map (s : PCSCHEMA) (npoints : ℕ) (i : ℕ) : ℕ :=
  if i < npoints * s.size then
    match s.dims.find? (fun d =>
        decide (d.byteoffset ≤ i % s.size ∧ i % s.size < d.byteoffset + d.size)) with
    | some d => (i / s.size) * s.size + (2 * d.byteoffset + d.size - 1 - i % s.size)
    | none => i
  else i

/-- Modelled from the spec (4.4): force a byte array into the machine
endianness: produce a fresh buffer in which every multi-byte dimension
field of every row is byte-reversed and all other bytes are copied. -/
def bytes_flip_endian (bytebuf : List ℕ) (s : PCSCHEMA) (npoints : ℕ) : List ℕ :=
  (List.range bytebuf.length).map (fun i => bytebuf.getD (pc_flip_map s npoints i) 0)

/-- Modelled from the spec (4.4) at the allocation level: the C function
takes a const input buffer and returns a freshly allocated output.  The
store is the list of live buffers; the operation appends the flipped
copy of the buffer at idx and returns the new buffer's index. -/
def bytes_flip_endian_alloc (st : List (List ℕ)) (idx : ℕ) (s : PCSCHEMA) (npoints : ℕ) :
    List (List ℕ) × ℕ :=
  (st ++ [bytes_flip_endian (st.getD idx []) s npoints], st.length)

/-- The raw (pre-affine) value currently stored in dimension idx of a
point, or none when idx is out of range.  Used to observe the stored
representation directly. -/
def pc_point_get_raw (pt : PCPOINT) (idx : ℕ) : Option ℚ :=
  match pt.schema.dims[idx]? with
  | some d => some (pc_dim_decode_raw d (pc_dim_slice pt.data d))
  | none => none

/-- Byte ranges of two dimensions are disjoint (propositional form of
pc_dims_disjoint_b). -/
def pcDisjRel (a b : PCDIMENSION) : Prop :=
  a.byteoffset + a.size ≤ b.byteoffset ∨ b.byteoffset + b.size ≤ a.byteoffset

/-- Example dimension: X stored as float64 at offset 0, unit scale. -/
def xyDim1 : PCDIMENSION :=
  { name := "x", description := "x coordinate", position := 0, size := 8,
    byteoffset := 0, interpretation := 9, scale := 1, offset := 0, active := true }

/-- Example dimension: Y stored as float64 at offset 8, unit scale. -/
def xyDim2 : PCDIMENSION :=
  { name := "y", description := "y coordinate", position := 1, size := 8,
    byteoffset := 8, interpretation := 9, scale := 1, offset := 0, active := true }

/-- Example schema with float64 X and Y dimensions. -/
def xySchema : PCSCHEMA :=
  { pcid := 1, ndims := 2, size := 16, dims := [xyDim1, xyDim2], srid := 4326,
    x_position := 0, y_position := 1, compression := 0 }

/-- A concrete mutable point of xySchema with coordinates (a, b). -/
def xyPoint (a b : ℚ) : PCPOINT :=
  { readonly := false, schema := xySchema,
    data := [a, 0, 0, 0, 0, 0, 0, 0, b, 0, 0, 0, 0, 0, 0, 0] }

/-- Example dimension: a uint8 quantity with unit scale. -/
def intDim : PCDIMENSION :=
  { name := "intensity", description := "uint8 sample", position := 0, size := 1,
    byteoffset := 0, interpretation := 2, scale := 1, offset := 0, active := true }

/-- Example one-dimension schema over intDim. -/
def intSchema : PCSCHEMA :=
  { pcid := 2, ndims := 1, size := 1, dims := [intDim], srid := 0,
    x_position := 0, y_position := 0, compression := 0 }

/-- The point produced by pc_point_from_double_array intSchema [300]:
the raw value saturates to 255. -/
def satPoint : PCPOINT :=
  { readonly := false, schema := intSchema, data := [255] }

/-- The point produced by pc_point_from_double_array intSchema [100]. -/
def inRangePoint : PCPOINT :=
  { readonly := false, schema := intSchema, data := [100] }

/-- A read-only wrapped point used to exercise the ReadOnly error path. -/
def roPoint : PCPOINT := pc_point_from_data intSchema [5]

/-- A read-only patch used to exercise the ReadOnly error path. -/
def roPatch : PCPATCH :=
  { readonly := true, npoints := 1, maxpoints := 0, schema := intSchema,
    xmin := 5, xmax := 5, ymin := 5, ymax := 5, data := [5] }

/-- A mutable one-byte point over intSchema holding raw 0. -/
def rwIntPoint : PCPOINT := pc_point_from_data_rw intSchema [0]

/-- The patch built from the points (1,2) and (5,-3) of xySchema. -/
def c2PatchVal : PCPATCH :=
  { readonly := false, npoints := 2, maxpoints := 2, schema := xySchema,
    xmin := 1, xmax := 5, ymin := -3, ymax := 2,
    data := [1, 0, 0, 0, 0, 0, 0, 0, 2, 0, 0, 0, 0, 0, 0, 0,
             5, 0, 0, 0, 0, 0, 0, 0, -3, 0, 0, 0, 0, 0, 0, 0] }

theorem natToCells_length : ∀ (w n : ℕ), (natToCells w n).length = w
  | 0, _ => rfl
  | w + 1, n => by simp [natToCells, natToCells_length w]

theorem pc_dim_encode_length (d : PCDIMENSION) (v : ℚ) (h : 1 ≤ d.size) :
    (pc_dim_encode d v).length = d.size := by
  unfold pc_dim_encode
  split
  · simp
    omega
  · simp [natToCells_length]

theorem pc_dim_slice_getElem? (data : List ℚ) (d : PCDIMENSION) (k : ℕ) :
    (pc_dim_slice data d)[k]? = if k < d.size then data[d.byteoffset + k]? else none := by
  simp [pc_dim_slice, List.getElem?_take, List.getElem?_drop]

theorem pc_dim_write_getElem? (data : List ℚ) (d : PCDIMENSION) (cells : List ℚ)
    (hlen : cells.length = d.size) (hb : d.byteoffset + d.size ≤ data.length) (j : ℕ) :
    (pc_dim_write data d cells)[j]? =
      if d.byteoffset ≤ j ∧ j < d.byteoffset + d.size then cells[j - d.byteoffset]?
      else data[j]? := by
  have htk : (data.take d.byteoffset).length = d.byteoffset := by
    rw [List.length_take]
    omega
  unfold pc_dim_write
  rw [List.append_assoc]
  rcases Nat.lt_or_ge j d.byteoffset with h1 | h1
  · rw [List.getElem?_append, htk, if_pos h1, List.getElem?_take, if_pos h1,
      if_neg (by omega)]
  · rcases Nat.lt_or_ge j (d.byteoffset + d.size) with h2 | h2
    · rw [List.getElem?_append, htk, if_neg (by omega), List.getElem?_append, hlen,
        if_pos (by omega), if_pos ⟨h1, h2⟩]
    · rw [List.getElem?_append, htk, if_neg (by omega), List.getElem?_append, hlen,
        if_neg (by omega), List.getElem?_drop, if_neg (by omega)]
      congr 1
      omega

theorem pc_dim_write_length (data : List ℚ) (d : PCDIMENSION) (cells : List ℚ)
    (hlen : cells.length = d.size) (hb : d.byteoffset + d.size ≤ data.length) :
    (pc_dim_write data d cells).length = data.length := by
  simp [pc_dim_write]
  omega

theorem pc_dim_slice_write_same (data : List ℚ) (d : PCDIMENSION) (cells : List ℚ)
    (hlen : cells.length = d.size) (hb : d.byteoffset + d.size ≤ data.length) :
    pc_dim_slice (pc_dim_write data d cells) d = cells := by
  apply List.ext_getElem?
  intro k
  rw [pc_dim_slice_getElem?]
  rcases Nat.lt_or_ge k d.size with h | h
  · rw [if_pos h, pc_dim_write_getElem? data d cells hlen hb, if_pos (by omega)]
    congr 1
    omega
  · rw [if_neg (by omega)]
    exact (List.getElem?_eq_none (by omega)).symm

theorem pc_dim_slice_write_disjoint (data : List ℚ) (d e : PCDIMENSION) (cells : List ℚ)
    (hdisj : pcDisjRel d e) (hlen : cells.length = e.size)
    (hb : e.byteoffset + e.size ≤ data.length) :
    pc_dim_slice (pc_dim_write data e cells) d = pc_dim_slice data d := by
  apply List.ext_getElem?
  intro k
  rw [pc_dim_slice_getElem?, pc_dim_slice_getElem?]
  rcases Nat.lt_or_ge k d.size with h | h
  · rw [if_pos h, if_pos h, pc_dim_write_getElem? data e cells hlen hb,
      if_neg (by rcases hdisj with h2 | h2 <;> omega)]
  · rw [if_neg (by omega), if_neg (by omega)]

theorem pc_dims_pairwise_iff : ∀ ds : List PCDIMENSION,
    pc_dims_pairwise ds = true ↔ List.Pairwise pcDisjRel ds
  | [] => by simp [pc_dims_pairwise]
  | d :: rest => by
    simp [pc_dims_pairwise, List.pairwise_cons, pc_dims_pairwise_iff rest,
      pc_dims_disjoint_b, List.all_eq_true, pcDisjRel]

theorem headD_eq_getD_zero (vs : List ℚ) : vs.headD 0 = vs.getD 0 0 := by
  cases vs <;> simp

theorem tail_getD (vs : List ℚ) (i : ℕ) : vs.tail.getD i 0 = vs.getD (i + 1) 0 := by
  cases vs <;> simp

theorem pc_write_values_length : ∀ (ds : List PCDIMENSION) (vs dat : List ℚ),
    (∀ e ∈ ds, 1 ≤ e.size ∧ e.byteoffset + e.size ≤ dat.length) →
    (pc_write_values ds vs dat).length = dat.length
  | [], _, _, _ => rfl
  | d :: ds, vs, dat, h => by
    have hd := h d (by simp)
    have hw : (pc_dim_write dat d (pc_dim_encode d (vs.headD 0))).length = dat.length :=
      pc_dim_write_length _ _ _ (pc_dim_encode_length d _ hd.1) hd.2
    unfold pc_write_values
    rw [pc_write_values_length ds vs.tail _
      (by intro e he; rw [hw]; exact h e (by simp [he])), hw]

theorem pc_write_values_slice_disjoint : ∀ (ds : List PCDIMENSION) (vs dat : List ℚ)
    (d : PCDIMENSION),
    (∀ e ∈ ds, pcDisjRel d e ∧ 1 ≤ e.size ∧ e.byteoffset + e.size ≤ dat.length) →
    pc_dim_slice (pc_write_values ds vs dat) d = pc_dim_slice dat d
  | [], _, _, _, _ => rfl
  | e :: ds, vs, dat, d, h => by
    have he := h e (by simp)
    have hw : (pc_dim_write dat e (pc_dim_encode e (vs.headD 0))).length = dat.length :=
      pc_dim_write_length _ _ _ (pc_dim_encode_length e _ he.2.1) he.2.2
    unfold pc_write_values
    rw [pc_write_values_slice_disjoint ds vs.tail _ d
        (by intro f hf; rw [hw]; exact h f (by simp [hf])),
      pc_dim_slice_write_disjoint dat d e _ he.1 (pc_dim_encode_length e _ he.2.1) he.2.2]

theorem pc_write_values_slice : ∀ (ds : List PCDIMENSION) (vs dat : List ℚ) (i : ℕ)
    (d : PCDIMENSION), ds[i]? = some d →
    (∀ e ∈ ds, 1 ≤ e.size ∧ e.byteoffset + e.size ≤ dat.length) →
    List.Pairwise pcDisjRel ds →
    pc_dim_slice (pc_write_values ds vs dat) d = pc_dim_encode d (vs.getD i 0)
  | [], _, _, i, d, hi, _, _ => by simp at hi
  | e :: ds, vs, dat, 0, d, hi, hb, hp => by
    simp at hi
    subst hi
    have hd := hb e (by simp)
    have hw : (pc_dim_write dat e (pc_dim_encode e (vs.headD 0))).length = dat.length :=
      pc_dim_write_length _ _ _ (pc_dim_encode_length e _ hd.1) hd.2
    have hrest := (List.pairwise_cons.mp hp).1
    unfold pc_write_values
    rw [pc_write_values_slice_disjoint ds vs.tail _ e
        (by
          intro f hf
          refine ⟨hrest f hf, (hb f (by simp [hf])).1, ?_⟩
          rw [hw]
          exact (hb f (by simp [hf])).2),
      pc_dim_slice_write_same dat e _ (pc_dim_encode_length e _ hd.1) hd.2,
      headD_eq_getD_zero]
  | e :: ds, vs, dat, i + 1, d, hi, hb, hp => by
    simp at hi
    have hd := hb e (by simp)
    have hw : (pc_dim_write dat e (pc_dim_encode e (vs.headD 0))).length = dat.length :=
      pc_dim_write_length _ _ _ (pc_dim_encode_length e _ hd.1) hd.2
    unfold pc_write_values
    rw [pc_write_values_slice ds vs.tail _ i d hi
        (by
          intro f hf
          refine ⟨(hb f (by simp [hf])).1, ?_⟩
          rw [hw]
          exact (hb f (by simp [hf])).2)
        ((List.pairwise_cons.mp hp).2),
      tail_getD]

theorem cellsToQ_natToCells : ∀ (w n : ℕ), cellsToQ (natToCells w n) = ((n % 256 ^ w : ℕ) : ℚ)
  | 0, n => by simp [natToCells, cellsToQ, Nat.mod_one]
  | w + 1, n => by
    have h : n % 256 ^ (w + 1) = n % 256 + 256 * (n / 256 % 256 ^ w) := by
      rw [pow_succ', Nat.mod_mul]
    rw [natToCells, cellsToQ, cellsToQ_natToCells w, h]
    push_cast
    ring

theorem intMinW_le_intMaxW (w : ℕ) (sg : Bool) : intMinW w sg ≤ intMaxW w sg := by
  have h1 : (0 : ℤ) < 2 ^ (8 * w - 1) := by positivity
  have h2 : (0 : ℤ) < 2 ^ (8 * w) := by positivity
  cases sg <;> simp [intMinW, intMaxW] <;> omega

theorem satClamp_mem (v : ℤ) (w : ℕ) (sg : Bool) :
    intMinW w sg ≤ satClamp v w sg ∧ satClamp v w sg ≤ intMaxW w sg := by
  have h := intMinW_le_intMaxW w sg
  unfold satClamp
  omega

theorem satClamp_eq_of_mem (v : ℤ) (w : ℕ) (sg : Bool)
    (h1 : intMinW w sg ≤ v) (h2 : v ≤ intMaxW w sg) : satClamp v w sg = v := by
  unfold satClamp
  omega

theorem satClamp_eq_max (v : ℤ) (w : ℕ) (sg : Bool) (h : intMaxW w sg < v) :
    satClamp v w sg = intMaxW w sg := by
  have := intMinW_le_intMaxW w sg
  unfold satClamp
  omega

theorem satClamp_eq_min (v : ℤ) (w : ℕ) (sg : Bool) (h : v < intMinW w sg) :
    satClamp v w sg = intMinW w sg := by
  have := intMinW_le_intMaxW w sg
  unfold satClamp
  omega

theorem qround_abs_le (q : ℚ) : |((qround q : ℤ) : ℚ) - q| ≤ 1 / 2 := by
  have h1 : ((qround q : ℤ) : ℚ) ≤ q + 1 / 2 := Int.floor_le (q + 1 / 2)
  have h2 : q + 1 / 2 < ((qround q : ℤ) : ℚ) + 1 := Int.lt_floor_add_one (q + 1 / 2)
  rw [abs_le]
  constructor <;> linarith

theorem int_emod_shift (N r : ℤ) (_hN : 0 < N) (hlb : -N ≤ r) (hub : r < N) :
    r.emod N = if r < 0 then r + N else r := by
  by_cases hneg : r < 0
  · rw [if_pos hneg]
    have hswap : (r + N).emod N = r.emod N := by
      show (r + N) % N = r % N
      rw [Int.add_emod, Int.emod_self, add_zero, Int.emod_emod_of_dvd _ dvd_rfl]
    rw [← hswap]
    exact Int.emod_eq_of_lt (by omega) (by omega)
  · rw [if_neg hneg]
    exact Int.emod_eq_of_lt (by omega) (by omega)

theorem decode_int_core (w : ℕ) (sg : Bool) (r : ℤ) (hw : 1 ≤ w)
    (hlbs : intMinW w sg ≤ r) (hubs : r ≤ intMaxW w sg) :
    (if sg && decide ((2 : ℚ) ^ (8 * w - 1) ≤ (((r.emod (2 ^ (8 * w))).toNat : ℕ) : ℚ)) then
        (((r.emod (2 ^ (8 * w))).toNat : ℕ) : ℚ) - 2 ^ (8 * w)
      else (((r.emod (2 ^ (8 * w))).toNat : ℕ) : ℚ)) = (r : ℚ) := by
  have hA : (0 : ℤ) < 2 ^ (8 * w - 1) := by positivity
  have hNA : (2 : ℤ) ^ (8 * w) = 2 * 2 ^ (8 * w - 1) := by
    rw [← pow_succ']
    congr 1
    omega
  have hN : (0 : ℤ) < 2 ^ (8 * w) := by positivity
  have hlb : -(2 ^ (8 * w - 1)) ≤ r := by
    rcases sg with _ | _ <;> simp [intMinW] at hlbs <;> omega
  have hub : r ≤ 2 ^ (8 * w) - 1 := by
    rcases sg with _ | _ <;> simp [intMaxW] at hubs <;> omega
  have hemod := int_emod_shift (2 ^ (8 * w)) r hN (by omega) (by omega)
  have hge : 0 ≤ r.emod (2 ^ (8 * w)) := by
    rw [hemod]
    split <;> omega
  have hq : ∀ z : ℤ, 0 ≤ z → ((z.toNat : ℕ) : ℚ) = (z : ℚ) := by
    intro z hz
    have h1 : ((z.toNat : ℕ) : ℤ) = z := Int.toNat_of_nonneg hz
    calc ((z.toNat : ℕ) : ℚ) = (((z.toNat : ℕ) : ℤ) : ℚ) := by push_cast; ring
      _ = (z : ℚ) := by rw [h1]
  have hcond : ((2 : ℚ) ^ (8 * w - 1) ≤ ((r.emod (2 ^ (8 * w)) : ℤ) : ℚ)) ↔
      ((2 : ℤ) ^ (8 * w - 1) ≤ r.emod (2 ^ (8 * w))) := by
    constructor <;> intro h <;> exact_mod_cast h
  rw [hq _ hge]
  rcases sg with _ | _
  · simp only [Bool.false_and, Bool.false_eq_true, if_false]
    have h0 : 0 ≤ r := by simpa [intMinW] using hlbs
    rw [hemod, if_neg (by omega)]
  · simp only [Bool.true_and]
    simp only [intMinW, intMaxW, if_pos] at hlbs hubs
    by_cases hneg : r < 0
    · have hcv : (2 : ℤ) ^ (8 * w - 1) ≤ r.emod (2 ^ (8 * w)) := by
        rw [hemod, if_pos hneg]
        omega
      rw [if_pos (by rw [decide_eq_true_eq, hcond]; exact hcv)]
      rw [hemod, if_pos hneg]
      push_cast
      ring
    · have hcv : ¬ ((2 : ℤ) ^ (8 * w - 1) ≤ r.emod (2 ^ (8 * w))) := by
        rw [hemod, if_neg hneg]
        omega
      rw [if_neg (by rw [decide_eq_true_eq, hcond]; exact hcv)]
      rw [hemod, if_neg hneg]

theorem pc_dim_decode_raw_encode_int (d : PCDIMENSION) (v : ℚ)
    (hfl : pc_interp_is_float d.interpretation = false) (hsz : 1 ≤ d.size) :
    pc_dim_decode_raw d (pc_dim_encode d v) =
      ((satClamp (qround ((v - d.offset) / d.scale)) d.size
        (pc_interp_signed d.interpretation) : ℤ) : ℚ) := by
  have hmem := satClamp_mem (qround ((v - d.offset) / d.scale)) d.size
    (pc_interp_signed d.interpretation)
  have h256 : (256 : ℕ) ^ d.size = 2 ^ (8 * d.size) := by
    rw [show (256 : ℕ) = 2 ^ 8 from rfl, ← pow_mul]
  have hN : (0 : ℤ) < 2 ^ (8 * d.size) := by positivity
  have hge : 0 ≤ (satClamp (qround ((v - d.offset) / d.scale)) d.size
      (pc_interp_signed d.interpretation)).emod (2 ^ (8 * d.size)) :=
    Int.emod_nonneg _ (by omega)
  have hlt : (satClamp (qround ((v - d.offset) / d.scale)) d.size
      (pc_interp_signed d.interpretation)).emod (2 ^ (8 * d.size)) < 2 ^ (8 * d.size) :=
    Int.emod_lt_of_pos _ hN
  have hc : ((2 ^ (8 * d.size) : ℕ) : ℤ) = (2 : ℤ) ^ (8 * d.size) := by push_cast; ring
  have htn : ((satClamp (qround ((v - d.offset) / d.scale)) d.size
      (pc_interp_signed d.interpretation)).emod (2 ^ (8 * d.size))).toNat % 256 ^ d.size
      = ((satClamp (qround ((v - d.offset) / d.scale)) d.size
      (pc_interp_signed d.interpretation)).emod (2 ^ (8 * d.size))).toNat := by
    apply Nat.mod_eq_of_lt
    rw [h256]
    omega
  unfold pc_dim_encode pc_dim_decode_raw
  rw [hfl]
  simp only [Bool.false_eq_true, if_false]
  rw [cellsToQ_natToCells, htn]
  exact decode_int_core d.size (pc_interp_signed d.interpretation) _ hsz hmem.1 hmem.2

theorem pc_dim_decode_encode_float (d : PCDIMENSION) (v : ℚ)
    (hfl : pc_interp_is_float d.interpretation = true) (hsc : d.scale ≠ 0) :
    pc_dim_decode d (pc_dim_encode d v) = v := by
  unfold pc_dim_decode pc_dim_decode_raw pc_dim_encode
  rw [hfl]
  simp only [if_true]
  simp [div_mul_cancel₀ _ hsc]

theorem pc_schema_is_valid_parts (s : PCSCHEMA) (h : pc_schema_is_valid s = true) :
    s.ndims = s.dims.length ∧ 0 < s.size ∧
    (∀ d ∈ s.dims, 1 ≤ d.size ∧ d.size ≤ 8 ∧ d.byteoffset + d.size ≤ s.size) ∧
    List.Pairwise pcDisjRel s.dims ∧
    0 ≤ s.x_position ∧ s.x_position < (s.ndims : ℤ) := by
  unfold pc_schema_is_valid at h
  simp only [Bool.and_eq_true, decide_eq_true_eq, List.all_eq_true] at h
  obtain ⟨⟨⟨⟨⟨h1, h2⟩, h3⟩, h4⟩, _h5⟩, h6⟩ := h
  exact ⟨h1, h2, fun d hd => (h3 d hd), (pc_dims_pairwise_iff s.dims).mp h4, h6.1, h6.2⟩

/-- Claim C6: in every schema accepted by pc_schema_is_valid, each
dimension's byte range [byteoffset, byteoffset + size) lies within
[0, schema.size) — equivalently byteoffset + size ≤ schema.size — and
the byte ranges of distinct dimensions are pairwise disjoint. -/
theorem schema_valid_layout (s : PCSCHEMA) (h : pc_schema_is_valid s = true) :
    (∀ d ∈ s.dims, d.byteoffset + d.size ≤ s.size) ∧
    (∀ (i j : ℕ) (di dj : PCDIMENSION), i < j → s.dims[i]? = some di →
      s.dims[j]? = some dj → pcDisjRel di dj) := by
  obtain ⟨_, _, h3, h4, _⟩ := pc_schema_is_valid_parts s h
  refine ⟨fun d hd => (h3 d hd).2.2, ?_⟩
  intro i j di dj hij hdi hdj
  rw [List.getElem?_eq_some] at hdi hdj
  obtain ⟨hi, hdi⟩ := hdi
  obtain ⟨hj, hdj⟩ := hdj
  have := List.pairwise_iff_getElem.mp h4 i j hi hj hij
  rw [hdi, hdj] at this
  exact this

/-- Claim C6 witness: xySchema is valid and so its layout facts hold. -/
theorem schema_valid_layout_witness :
    (∀ d ∈ xySchema.dims, d.byteoffset + d.size ≤ xySchema.size) ∧
    (∀ (i j : ℕ) (di dj : PCDIMENSION), i < j → xySchema.dims[i]? = some di →
      xySchema.dims[j]? = some dj → pcDisjRel di dj) :=
  schema_valid_layout xySchema (by decide)

theorem pc_point_from_double_array_ok (s : PCSCHEMA) (array : List ℚ) (pt : PCPOINT)
    (h : pc_point_from_double_array s array s.ndims = Except.ok pt) :
    pt = { readonly := false, schema := s,
           data := pc_write_values s.dims array (List.replicate s.size 0) } := by
  unfold pc_point_from_double_array at h
  split at h
  · simp only [Except.ok.injEq] at h
    exact h.symm
  · simp at h

/-- Claim C1 (amended): for a valid schema and a point built by
pc_point_from_double_array from exactly ndims values, reading dimension i
back with pc_point_get_double_by_index returns a value within scale/2 of
the input — provided the dimension's scale is positive and, for
integer-interpreted dimensions, the rounded scaled value lies within the
representable range of the declared width (otherwise it saturates and the
bound can fail). -/
theorem point_roundtrip_within_half_scale (s : PCSCHEMA) (array : List ℚ) (pt : PCPOINT)
    (i : ℕ) (d : PCDIMENSION)
    (hv : pc_schema_is_valid s = true)
    (hmk : pc_point_from_double_array s array s.ndims = Except.ok pt)
    (hd : s.dims[i]? = some d)
    (hsc : 0 < d.scale)
    (hfit : pc_interp_is_float d.interpretation = true ∨
      (pc_interp_is_float d.interpretation = false ∧
        intMinW d.size (pc_interp_signed d.interpretation) ≤
          qround ((array.getD i 0 - d.offset) / d.scale) ∧
        qround ((array.getD i 0 - d.offset) / d.scale) ≤
          intMaxW d.size (pc_interp_signed d.interpretation))) :
    ∃ w, pc_point_get_double_by_index pt i = Except.ok w ∧
      |w - array.getD i 0| ≤ d.scale / 2 := by
  obtain ⟨_, _, h3, h4, _⟩ := pc_schema_is_valid_parts s hv
  have hmem : d ∈ s.dims := by
    rw [List.getElem?_eq_some] at hd
    obtain ⟨hi, hdi⟩ := hd
    exact hdi ▸ List.getElem_mem hi
  have hpt := pc_point_from_double_array_ok s array pt hmk
  subst hpt
  have hslice : pc_dim_slice (pc_write_values s.dims array (List.replicate s.size 0)) d
      = pc_dim_encode d (array.getD i 0) := by
    apply pc_write_values_slice s.dims array _ i d hd _ h4
    intro e he
    refine ⟨(h3 e he).1, ?_⟩
    rw [List.length_replicate]
    exact (h3 e he).2.2
  unfold pc_point_get_double_by_index
  simp only [hd]
  refine ⟨_, rfl, ?_⟩
  rw [hslice]
  rcases hfit with hfl | ⟨hfl, hlo, hhi⟩
  · rw [pc_dim_decode_encode_float d _ hfl (ne_of_gt hsc)]
    simp only [sub_self, abs_zero]
    positivity
  · unfold pc_dim_decode
    rw [pc_dim_decode_raw_encode_int d _ hfl (h3 d hmem).1,
      satClamp_eq_of_mem _ _ _ hlo hhi]
    have habs := qround_abs_le ((array.getD i 0 - d.offset) / d.scale)
    have hqs : (array.getD i 0 - d.offset) / d.scale * d.scale = array.getD i 0 - d.offset :=
      div_mul_cancel₀ _ (ne_of_gt hsc)
    have hkey : ((qround ((array.getD i 0 - d.offset) / d.scale) : ℤ) : ℚ) * d.scale + d.offset
        - array.getD i 0
        = (((qround ((array.getD i 0 - d.offset) / d.scale) : ℤ) : ℚ)
            - (array.getD i 0 - d.offset) / d.scale) * d.scale := by
      rw [sub_mul, hqs]
      ring
    rw [hkey, abs_mul, abs_of_pos hsc]
    calc |((qround ((array.getD i 0 - d.offset) / d.scale) : ℤ) : ℚ)
          - (array.getD i 0 - d.offset) / d.scale| * d.scale
        ≤ 1 / 2 * d.scale := mul_le_mul_of_nonneg_right habs (le_of_lt hsc)
      _ = d.scale / 2 := by ring

theorem pc_dim_encode_intDim_100 : pc_dim_encode intDim 100 = [100] := by
  unfold pc_dim_encode qround satClamp intMinW intMaxW
  norm_num [pc_interp_is_float, pc_interp_signed, intDim, natToCells, Int.toNat_ofNat]
  norm_cast

theorem pc_dim_encode_intDim_300 : pc_dim_encode intDim 300 = [255] := by
  unfold pc_dim_encode qround satClamp intMinW intMaxW
  norm_num [pc_interp_is_float, pc_interp_signed, intDim, natToCells, Int.toNat_ofNat]
  norm_cast

theorem from_double_array_intSchema_100 :
    pc_point_from_double_array intSchema [100] intSchema.ndims = Except.ok inRangePoint := by
  unfold pc_point_from_double_array
  rw [if_pos (by decide)]
  have h : pc_write_values intSchema.dims [100] (List.replicate intSchema.size 0) = [100] := by
    show pc_write_values [intDim] [100] [0] = [100]
    simp only [pc_write_values, List.headD_cons, List.tail_cons, pc_dim_encode_intDim_100]
    simp [pc_dim_write, intDim]
  rw [h]
  rfl

theorem from_double_array_intSchema_300 :
    pc_point_from_double_array intSchema [300] intSchema.ndims = Except.ok satPoint := by
  unfold pc_point_from_double_array
  rw [if_pos (by decide)]
  have h : pc_write_values intSchema.dims [300] (List.replicate intSchema.size 0) = [255] := by
    show pc_write_values [intDim] [300] [0] = [255]
    simp only [pc_write_values, List.headD_cons, List.tail_cons, pc_dim_encode_intDim_300]
    simp [pc_dim_write, intDim]
  rw [h]
  rfl

theorem get_double_satPoint : pc_point_get_double_by_index satPoint 0 = Except.ok 255 := by
  unfold pc_point_get_double_by_index
  simp only [satPoint, intSchema]
  norm_num [pc_dim_decode, pc_dim_decode_raw, pc_dim_slice, cellsToQ,
    pc_interp_is_float, pc_interp_signed, intDim]

/-- Claim C1 witness: reading back the in-range value 100 from a uint8
dimension with unit scale returns it within scale/2. -/
theorem point_roundtrip_within_half_scale_witness :
    ∃ w, pc_point_get_double_by_index inRangePoint 0 = Except.ok w ∧
      |w - ([(100 : ℚ)].getD 0 0)| ≤ intDim.scale / 2 :=
  point_roundtrip_within_half_scale intSchema [100] inRangePoint 0 intDim
    (by decide) from_double_array_intSchema_100 (by decide)
    (by norm_num [intDim])
    (Or.inr ⟨by decide,
      by norm_num [intDim, qround, intMinW, pc_interp_signed],
      by norm_num [intDim, qround, intMaxW, pc_interp_signed]⟩)

/-- Claim C1 counterexample: with the valid schema intSchema (one uint8
dimension, scale 1, offset 0), the input value 300 is stored saturated
and reads back as 255, which is not within scale/2 = 1/2 of 300.  So the
round-trip bound does not hold for every array of ndims values. -/
theorem point_roundtrip_counterexample :
    pc_schema_is_valid intSchema = true ∧
    pc_point_from_double_array intSchema [300] intSchema.ndims = Except.ok satPoint ∧
    pc_point_get_double_by_index satPoint 0 = Except.ok 255 ∧
    ¬ (|(255 : ℚ) - ([(300 : ℚ)].getD 0 0)| ≤ intDim.scale / 2) :=
  ⟨by decide, from_double_array_intSchema_300, get_double_satPoint,
    by norm_num [intDim]⟩

/-- Claim C4: any mutation call on a readonly point or patch
(set_double_by_index, set_double_by_name, add_point) fails with ReadOnly
and returns the structure completely unchanged: data, npoints and the
bounding box are those of the input. -/
theorem readonly_mutation_rejected (pt : PCPOINT) (c : PCPATCH) (p : PCPOINT)
    (idx : ℕ) (name : String) (val : ℚ)
    (hpt : pt.readonly = true) (hc : c.readonly = true) :
    pc_point_set_double_by_index pt idx val = (pt, some PCError.ReadOnly) ∧
    pc_point_set_double_by_name pt name val = (pt, some PCError.ReadOnly) ∧
    pc_patch_add_point c p = (c, some PCError.ReadOnly) := by
  unfold pc_point_set_double_by_index pc_point_set_double_by_name pc_patch_add_point
  rw [hpt, hc]
  simp

/-- Claim C4 witness: the readonly wrapped point and patch reject all
three mutations unchanged. -/
theorem readonly_mutation_rejected_witness :
    pc_point_set_double_by_index roPoint 0 7 = (roPoint, some PCError.ReadOnly) ∧
    pc_point_set_double_by_name roPoint "intensity" 7 = (roPoint, some PCError.ReadOnly) ∧
    pc_patch_add_point roPatch roPoint = (roPatch, some PCError.ReadOnly) :=
  readonly_mutation_rejected roPoint roPatch roPoint 0 "intensity" 7 rfl rfl

theorem interp_int_not_float (tag : ℕ) (h : pc_interp_is_int tag = true) :
    pc_interp_is_float tag = false := by
  simp only [pc_interp_is_int, decide_eq_true_eq] at h
  simp only [pc_interp_is_float, Bool.or_eq_false_iff, beq_eq_false_iff_ne, ne_eq]
  omega

/-- Claim C7: on a mutable point, set_double_by_index for an
integer-interpreted dimension succeeds and stores
raw = round((value-offset)/scale) saturated to the dimension's declared
width: the stored raw always lies in [intMinW, intMaxW]; when the rounded
quantity overflows, the stored raw equals the nearest representable bound
(never the value wrapped modulo 2^width); and set_double_by_name through
the same dimension behaves identically. -/
theorem set_double_saturates (pt : PCPOINT) (idx : ℕ) (name : String) (val : ℚ)
    (d : PCDIMENSION)
    (hro : pt.readonly = false)
    (hd : pt.schema.dims[idx]? = some d)
    (hname : pc_schema_get_dimension_by_name pt.schema name = some d)
    (hlen : pt.data.length = pt.schema.size)
    (hb : d.byteoffset + d.size ≤ pt.schema.size)
    (hsz : 1 ≤ d.size)
    (hint : pc_interp_is_int d.interpretation = true) :
    (pc_point_set_double_by_index pt idx val).2 = none ∧
    pc_point_get_raw (pc_point_set_double_by_index pt idx val).1 idx =
      some ((satClamp (qround ((val - d.offset) / d.scale)) d.size
        (pc_interp_signed d.interpretation) : ℤ) : ℚ) ∧
    intMinW d.size (pc_interp_signed d.interpretation) ≤
      satClamp (qround ((val - d.offset) / d.scale)) d.size
        (pc_interp_signed d.interpretation) ∧
    satClamp (qround ((val - d.offset) / d.scale)) d.size
        (pc_interp_signed d.interpretation) ≤
      intMaxW d.size (pc_interp_signed d.interpretation) ∧
    (intMaxW d.size (pc_interp_signed d.interpretation) <
        qround ((val - d.offset) / d.scale) →
      satClamp (qround ((val - d.offset) / d.scale)) d.size
          (pc_interp_signed d.interpretation) =
        intMaxW d.size (pc_interp_signed d.interpretation)) ∧
    (qround ((val - d.offset) / d.scale) <
        intMinW d.size (pc_interp_signed d.interpretation) →
      satClamp (qround ((val - d.offset) / d.scale)) d.size
          (pc_interp_signed d.interpretation) =
        intMinW d.size (pc_interp_signed d.interpretation)) ∧
    pc_point_set_double_by_name pt name val = pc_point_set_double_by_index pt idx val := by
  have hfl := interp_int_not_float d.interpretation hint
  have hwrite : pc_point_set_double_by_index pt idx val =
      ({ pt with data := pc_dim_write pt.data d (pc_dim_encode d val) }, none) := by
    unfold pc_point_set_double_by_index
    rw [hro]
    simp only [Bool.false_eq_true, if_false, hd]
  refine ⟨by rw [hwrite], ?_, (satClamp_mem _ _ _).1, (satClamp_mem _ _ _).2,
    fun h => satClamp_eq_max _ _ _ h, fun h => satClamp_eq_min _ _ _ h, ?_⟩
  · rw [hwrite]
    unfold pc_point_get_raw
    simp only [hd]
    rw [pc_dim_slice_write_same pt.data d _ (pc_dim_encode_length d _ hsz) (by omega),
      pc_dim_decode_raw_encode_int d _ hfl hsz]
  · rw [hwrite]
    unfold pc_point_set_double_by_name
    rw [hro]
    simp only [Bool.false_eq_true, if_false, hname]

/-- Claim C7 witness: writing 300 into the mutable uint8 point stores the
saturated raw 255, within bounds, and by-name writing agrees. -/
theorem set_double_saturates_witness :
    (pc_point_set_double_by_index rwIntPoint 0 300).2 = none ∧
    pc_point_get_raw (pc_point_set_double_by_index rwIntPoint 0 300).1 0 =
      some ((satClamp (qround ((300 - intDim.offset) / intDim.scale)) intDim.size
        (pc_interp_signed intDim.interpretation) : ℤ) : ℚ) ∧
    intMinW intDim.size (pc_interp_signed intDim.interpretation) ≤
      satClamp (qround ((300 - intDim.offset) / intDim.scale)) intDim.size
        (pc_interp_signed intDim.interpretation) ∧
    satClamp (qround ((300 - intDim.offset) / intDim.scale)) intDim.size
        (pc_interp_signed intDim.interpretation) ≤
      intMaxW intDim.size (pc_interp_signed intDim.interpretation) ∧
    (intMaxW intDim.size (pc_interp_signed intDim.interpretation) <
        qround ((300 - intDim.offset) / intDim.scale) →
      satClamp (qround ((300 - intDim.offset) / intDim.scale)) intDim.size
          (pc_interp_signed intDim.interpretation) =
        intMaxW intDim.size (pc_interp_signed intDim.interpretation)) ∧
    (qround ((300 - intDim.offset) / intDim.scale) <
        intMinW intDim.size (pc_interp_signed intDim.interpretation) →
      satClamp (qround ((300 - intDim.offset) / intDim.scale)) intDim.size
          (pc_interp_signed intDim.interpretation) =
        intMinW intDim.size (pc_interp_signed intDim.interpretation)) ∧
    pc_point_set_double_by_name rwIntPoint "intensity" 300 =
      pc_point_set_double_by_index rwIntPoint 0 300 :=
  set_double_saturates rwIntPoint 0 "intensity" 300 intDim rfl rfl rfl rfl
    (by decide) (by decide) (by decide)

/-- Claim C8: wire-point accessors: on any buffer shorter than the
8-byte minimum header both accessors fail with Truncated; on the
serialized envelope of a point, wkb_get_pcid returns the pcid field and
wkb_point_get_data_ptr returns offset 8, the start of the payload inside
the same buffer (no copy is made: dropping the 8 header bytes of the
envelope is exactly the payload). -/
theorem wkb_accessors_spec (bytes : List ℕ) (sp : SERPOINT)
    (hshort : bytes.length < 8) (hpcid : sp.pcid < 2 ^ 32) :
    wkb_get_pcid bytes = Except.error PCError.Truncated ∧
    wkb_point_get_data_ptr bytes = Except.error PCError.Truncated ∧
    wkb_get_pcid (ser_point_serialize sp) = Except.ok sp.pcid ∧
    wkb_point_get_data_ptr (ser_point_serialize sp) = Except.ok 8 ∧
    (ser_point_serialize sp).drop 8 = sp.data := by
  have hlen : (ser_point_serialize sp).length = 8 + sp.data.length := by
    simp [ser_point_serialize, le32]
    omega
  refine ⟨?_, ?_, ?_, ?_, ?_⟩
  · unfold wkb_get_pcid
    rw [if_pos hshort]
  · unfold wkb_point_get_data_ptr
    rw [if_pos hshort]
  · unfold wkb_get_pcid
    rw [if_neg (by omega)]
    simp only [ser_point_serialize, le32, List.cons_append, List.nil_append,
      List.getD_cons_succ, List.getD_cons_zero, Except.ok.injEq]
    omega
  · unfold wkb_point_get_data_ptr
    rw [if_neg (by omega)]
  · simp [ser_point_serialize, le32]

/-- Claim C8 witness: both accessors reject a short buffer, and recover
the pcid and payload of a concrete envelope. -/
theorem wkb_accessors_spec_witness :
    wkb_get_pcid [1, 2, 3] = Except.error PCError.Truncated ∧
    wkb_point_get_data_ptr [1, 2, 3] = Except.error PCError.Truncated ∧
    wkb_get_pcid (ser_point_serialize ⟨10, 77, [1, 2]⟩) = Except.ok 77 ∧
    wkb_point_get_data_ptr (ser_point_serialize ⟨10, 77, [1, 2]⟩) = Except.ok 8 ∧
    (ser_point_serialize ⟨10, 77, [1, 2]⟩).drop 8 = [1, 2] :=
  wkb_accessors_spec [1, 2, 3] ⟨10, 77, [1, 2]⟩ (by decide) (by decide)

theorem pc_patch_make_from_points_ok (p0 : PCPOINT) (rest : List PCPOINT) (patch : PCPATCH)
    (h : pc_patch_make_from_points (p0 :: rest) = Except.ok patch) :
    ∃ x0 y0 xs ys,
      pc_point_get_x p0 = Except.ok x0 ∧ pc_point_get_y p0 = Except.ok y0 ∧
      pc_mapExc pc_point_get_x rest = Except.ok xs ∧
      pc_mapExc pc_point_get_y rest = Except.ok ys ∧
      (∀ p ∈ rest, p.schema = p0.schema) ∧
      patch = { readonly := false, npoints := (p0 :: rest).length,
                maxpoints := (p0 :: rest).length, schema := p0.schema,
                xmin := xs.foldl min x0, xmax := xs.foldl max x0,
                ymin := ys.foldl min y0, ymax := ys.foldl max y0,
                data := ((p0 :: rest).map PCPOINT.data).flatten } := by
  simp only [pc_patch_make_from_points] at h
  split at h
  · rename_i hall
    cases hx0 : pc_point_get_x p0 with
    | error e =>
      rw [hx0] at h
      simp at h
    | ok x0 =>
      rw [hx0] at h
      dsimp only at h
      cases hy0 : pc_point_get_y p0 with
      | error e =>
        rw [hy0] at h
        simp at h
      | ok y0 =>
        rw [hy0] at h
        dsimp only at h
        cases hxs : pc_mapExc pc_point_get_x rest with
        | error e =>
          rw [hxs] at h
          simp at h
        | ok xs =>
          rw [hxs] at h
          dsimp only at h
          cases hys : pc_mapExc pc_point_get_y rest with
          | error e =>
            rw [hys] at h
            simp at h
          | ok ys =>
            rw [hys] at h
            dsimp only at h
            simp only [Except.ok.injEq] at h
            refine ⟨x0, y0, xs, ys, rfl, rfl, rfl, rfl, ?_, h.symm⟩
            intro p hp
            have := List.all_eq_true.mp hall p hp
            exact of_decide_eq_true this
  · simp at h

theorem pc_mapExc_ok {f : PCPOINT → Except PCError ℚ} : ∀ (l : List PCPOINT) (xs : List ℚ),
    pc_mapExc f l = Except.ok xs →
    (∀ p ∈ l, ∃ x ∈ xs, f p = Except.ok x) ∧ (∀ x ∈ xs, ∃ p ∈ l, f p = Except.ok x)
  | [], xs, h => by
    unfold pc_mapExc at h
    simp only [Except.ok.injEq] at h
    subst h
    simp
  | p :: ps, xs, h => by
    unfold pc_mapExc at h
    split at h
    · simp at h
    · rename_i x hx
      split at h
      · simp at h
      · rename_i xs' hxs
        simp only [Except.ok.injEq] at h
        subst h
        obtain ⟨h1, h2⟩ := pc_mapExc_ok ps xs' hxs
        constructor
        · intro q hq
          rcases List.mem_cons.mp hq with rfl | hq2
          · exact ⟨x, by simp, hx⟩
          · obtain ⟨x', hx', hfx⟩ := h1 q hq2
            exact ⟨x', by simp [hx'], hfx⟩
        · intro x' hx'
          rcases List.mem_cons.mp hx' with rfl | hx2
          · exact ⟨p, by simp, hx⟩
          · obtain ⟨q, hq, hfq⟩ := h2 x' hx2
            exact ⟨q, by simp [hq], hfq⟩

theorem foldl_min_le_self : ∀ (xs : List ℚ) (a : ℚ), xs.foldl min a ≤ a
  | [], a => le_refl a
  | x :: xs, a => le_trans (foldl_min_le_self xs (min a x)) (min_le_left a x)

theorem foldl_min_le_mem : ∀ (xs : List ℚ) (a b : ℚ), b ∈ xs → xs.foldl min a ≤ b
  | x :: xs, a, b, h => by
    rcases List.mem_cons.mp h with rfl | h2
    · exact le_trans (foldl_min_le_self xs (min a b)) (min_le_right a b)
    · exact foldl_min_le_mem xs (min a x) b h2

theorem foldl_min_mem : ∀ (xs : List ℚ) (a : ℚ), xs.foldl min a = a ∨ xs.foldl min a ∈ xs
  | [], _ => Or.inl rfl
  | x :: xs, a => by
    rcases foldl_min_mem xs (min a x) with h | h
    · rcases min_choice a x with h2 | h2
      · left
        rw [List.foldl_cons, h, h2]
      · right
        rw [List.foldl_cons, h, h2]
        exact List.mem_cons_self x xs
    · right
      exact List.mem_cons_of_mem x h

theorem foldl_max_le_self : ∀ (xs : List ℚ) (a : ℚ), a ≤ xs.foldl max a
  | [], a => le_refl a
  | x :: xs, a => le_trans (le_max_left a x) (foldl_max_le_self xs (max a x))

theorem foldl_max_le_mem : ∀ (xs : List ℚ) (a b : ℚ), b ∈ xs → b ≤ xs.foldl max a
  | x :: xs, a, b, h => by
    rcases List.mem_cons.mp h with rfl | h2
    · exact le_trans (le_max_right a b) (foldl_max_le_self xs (max a b))
    · exact foldl_max_le_mem xs (max a x) b h2

theorem foldl_max_mem : ∀ (xs : List ℚ) (a : ℚ), xs.foldl max a = a ∨ xs.foldl max a ∈ xs
  | [], _ => Or.inl rfl
  | x :: xs, a => by
    rcases foldl_max_mem xs (max a x) with h | h
    · rcases max_choice a x with h2 | h2
      · left
        rw [List.foldl_cons, h, h2]
      · right
        rw [List.foldl_cons, h, h2]
        exact List.mem_cons_self x xs
    · right
      exact List.mem_cons_of_mem x h

/-- Claim C2: for a patch built by pc_patch_make_from_points, xmin is
exactly the minimum of pc_point_get_x over the input points, and likewise
xmax, ymin, ymax: every point's X/Y lies inside the box, and each bound
is attained by some input point. -/
theorem patch_bbox_exact (pts : List PCPOINT) (patch : PCPATCH)
    (h : pc_patch_make_from_points pts = Except.ok patch) :
    (∀ p ∈ pts, ∀ x, pc_point_get_x p = Except.ok x → patch.xmin ≤ x ∧ x ≤ patch.xmax) ∧
    (∃ p ∈ pts, pc_point_get_x p = Except.ok patch.xmin) ∧
    (∃ p ∈ pts, pc_point_get_x p = Except.ok patch.xmax) ∧
    (∀ p ∈ pts, ∀ y, pc_point_get_y p = Except.ok y → patch.ymin ≤ y ∧ y ≤ patch.ymax) ∧
    (∃ p ∈ pts, pc_point_get_y p = Except.ok patch.ymin) ∧
    (∃ p ∈ pts, pc_point_get_y p = Except.ok patch.ymax) := by
  match pts with
  | [] =>
    unfold pc_patch_make_from_points at h
    simp at h
  | p0 :: rest =>
    obtain ⟨x0, y0, xs, ys, hx0, hy0, hxs, hys, _, hpatch⟩ :=
      pc_patch_make_from_points_ok p0 rest patch h
    subst hpatch
    obtain ⟨hxs1, hxs2⟩ := pc_mapExc_ok rest xs hxs
    obtain ⟨hys1, hys2⟩ := pc_mapExc_ok rest ys hys
    refine ⟨?_, ?_, ?_, ?_, ?_, ?_⟩
    · intro p hp x hpx
      rcases List.mem_cons.mp hp with rfl | hp2
      · rw [hx0] at hpx
        simp only [Except.ok.injEq] at hpx
        subst hpx
        exact ⟨foldl_min_le_self xs _, foldl_max_le_self xs _⟩
      · obtain ⟨x', hx', hfx⟩ := hxs1 p hp2
        rw [hfx] at hpx
        simp only [Except.ok.injEq] at hpx
        subst hpx
        exact ⟨foldl_min_le_mem xs x0 _ hx', foldl_max_le_mem xs x0 _ hx'⟩
    · rcases foldl_min_mem xs x0 with hm | hm
      · exact ⟨p0, List.mem_cons_self p0 rest, by rw [hx0, hm]⟩
      · obtain ⟨q, hq, hfq⟩ := hxs2 _ hm
        exact ⟨q, List.mem_cons_of_mem p0 hq, hfq⟩
    · rcases foldl_max_mem xs x0 with hm | hm
      · exact ⟨p0, List.mem_cons_self p0 rest, by rw [hx0, hm]⟩
      · obtain ⟨q, hq, hfq⟩ := hxs2 _ hm
        exact ⟨q, List.mem_cons_of_mem p0 hq, hfq⟩
    · intro p hp y hpy
      rcases List.mem_cons.mp hp with rfl | hp2
      · rw [hy0] at hpy
        simp only [Except.ok.injEq] at hpy
        subst hpy
        exact ⟨foldl_min_le_self ys _, foldl_max_le_self ys _⟩
      · obtain ⟨y', hy', hfy⟩ := hys1 p hp2
        rw [hfy] at hpy
        simp only [Except.ok.injEq] at hpy
        subst hpy
        exact ⟨foldl_min_le_mem ys y0 _ hy', foldl_max_le_mem ys y0 _ hy'⟩
    · rcases foldl_min_mem ys y0 with hm | hm
      · exact ⟨p0, List.mem_cons_self p0 rest, by rw [hy0, hm]⟩
      · obtain ⟨q, hq, hfq⟩ := hys2 _ hm
        exact ⟨q, List.mem_cons_of_mem p0 hq, hfq⟩
    · rcases foldl_max_mem ys y0 with hm | hm
      · exact ⟨p0, List.mem_cons_self p0 rest, by rw [hy0, hm]⟩
      · obtain ⟨q, hq, hfq⟩ := hys2 _ hm
        exact ⟨q, List.mem_cons_of_mem p0 hq, hfq⟩

theorem get_x_xyPoint (a b : ℚ) : pc_point_get_x (xyPoint a b) = Except.ok a := by
  unfold pc_point_get_x
  rw [if_pos (by norm_num [xyPoint, xySchema])]
  unfold pc_point_get_double_by_index
  norm_num [xyPoint, xySchema, xyDim1, pc_dim_decode, pc_dim_decode_raw, pc_dim_slice,
    pc_interp_is_float]

theorem get_y_xyPoint (a b : ℚ) : pc_point_get_y (xyPoint a b) = Except.ok b := by
  unfold pc_point_get_y
  rw [if_pos (by norm_num [xyPoint, xySchema])]
  unfold pc_point_get_double_by_index
  norm_num [xyPoint, xySchema, xyDim2, pc_dim_decode, pc_dim_decode_raw, pc_dim_slice,
    pc_interp_is_float]

theorem make_from_points_example :
    pc_patch_make_from_points [xyPoint 1 2, xyPoint 5 (-3)] = Except.ok c2PatchVal := by
  have hx1 := get_x_xyPoint 1 2
  have hy1 := get_y_xyPoint 1 2
  have hx2 := get_x_xyPoint 5 (-3)
  have hy2 := get_y_xyPoint 5 (-3)
  simp only [pc_patch_make_from_points, pc_mapExc, hx1, hy1, hx2, hy2]
  rw [if_pos (by simp [xyPoint])]
  simp only [List.foldl_cons, List.foldl_nil, List.map_cons, List.map_nil]
  norm_num [c2PatchVal, xyPoint, min_def, max_def]

/-- Claim C2 witness: for the patch built from the points (1,2) and
(5,-3), the bounding box is exactly the min/max of the coordinates. -/
theorem patch_bbox_exact_witness :
    (∀ p ∈ [xyPoint 1 2, xyPoint 5 (-3)], ∀ x, pc_point_get_x p = Except.ok x →
      c2PatchVal.xmin ≤ x ∧ x ≤ c2PatchVal.xmax) ∧
    (∃ p ∈ [xyPoint 1 2, xyPoint 5 (-3)], pc_point_get_x p = Except.ok c2PatchVal.xmin) ∧
    (∃ p ∈ [xyPoint 1 2, xyPoint 5 (-3)], pc_point_get_x p = Except.ok c2PatchVal.xmax) ∧
    (∀ p ∈ [xyPoint 1 2, xyPoint 5 (-3)], ∀ y, pc_point_get_y p = Except.ok y →
      c2PatchVal.ymin ≤ y ∧ y ≤ c2PatchVal.ymax) ∧
    (∃ p ∈ [xyPoint 1 2, xyPoint 5 (-3)], pc_point_get_y p = Except.ok c2PatchVal.ymin) ∧
    (∃ p ∈ [xyPoint 1 2, xyPoint 5 (-3)], pc_point_get_y p = Except.ok c2PatchVal.ymax) :=
  patch_bbox_exact [xyPoint 1 2, xyPoint 5 (-3)] c2PatchVal make_from_points_example

/-- Claim C9: every point/patch operation leaves the borrowed schema
unchanged: the structure returned by each construction, set, or append
operation references a schema value-equal to the one it was given (pure
accessors return no structure and cannot modify anything in this
embedding). -/
theorem operations_preserve_schema (s : PCSCHEMA) (dat arr : List ℚ) (n idx : ℕ)
    (name : String) (val : ℚ) (pt p0 : PCPOINT) (c : PCPATCH) (rest : List PCPOINT)
    (patch : PCPATCH) :
    (pc_point_make s).schema = s ∧
    (pc_point_from_data s dat).schema = s ∧
    (pc_point_from_data_rw s dat).schema = s ∧
    (pc_point_from_double_array s arr n = Except.ok pt → pt.schema = s) ∧
    (pc_point_set_double_by_index p0 idx val).1.schema = p0.schema ∧
    (pc_point_set_double_by_name p0 name val).1.schema = p0.schema ∧
    (pc_patch_make s).schema = s ∧
    (pc_patch_make_from_points (p0 :: rest) = Except.ok patch → patch.schema = p0.schema) ∧
    (pc_patch_add_point c p0).1.schema = c.schema := by
  refine ⟨rfl, rfl, rfl, ?_, ?_, ?_, rfl, ?_, ?_⟩
  · intro h
    unfold pc_point_from_double_array at h
    split at h
    · simp only [Except.ok.injEq] at h
      rw [← h]
    · simp at h
  · unfold pc_point_set_double_by_index
    split
    · rfl
    · split <;> rfl
  · unfold pc_point_set_double_by_name
    split
    · rfl
    · split <;> rfl
  · intro h
    obtain ⟨x0, y0, xs, ys, _, _, _, _, _, hpatch⟩ :=
      pc_patch_make_from_points_ok p0 rest patch h
    rw [hpatch]
  · unfold pc_patch_add_point
    split
    · rfl
    · split
      · split <;> rfl
      · rfl

/-- Claim C9 witness: schema preservation observed on concrete
operations: a point built from values, a patch built from points, and a
rejected mutation all carry the input schema unchanged. -/
theorem operations_preserve_schema_witness :
    inRangePoint.schema = intSchema ∧
    c2PatchVal.schema = (xyPoint 1 2).schema ∧
    (pc_patch_add_point roPatch roPoint).1.schema = roPatch.schema := by
  refine ⟨?_, ?_, ?_⟩
  · exact (operations_preserve_schema intSchema [] [100] intSchema.ndims 0 "x" 0
      inRangePoint roPoint roPatch [] c2PatchVal).2.2.2.1 from_double_array_intSchema_100
  · exact (operations_preserve_schema xySchema [] [] 0 0 "x" 0 roPoint (xyPoint 1 2)
      roPatch [xyPoint 5 (-3)] c2PatchVal).2.2.2.2.2.2.2.1 make_from_points_example
  · exact (operations_preserve_schema intSchema [] [] 0 0 "x" 0 roPoint roPoint
      roPatch [] c2PatchVal).2.2.2.2.2.2.2.2

theorem pc_mapExc_cons_ok {f : PCPOINT → Except PCError ℚ} {p : PCPOINT}
    {ps : List PCPOINT} {xs : List ℚ} (h : pc_mapExc f (p :: ps) = Except.ok xs) :
    ∃ x xs', f p = Except.ok x ∧ pc_mapExc f ps = Except.ok xs' ∧ xs = x :: xs' := by
  unfold pc_mapExc at h
  split at h
  · simp at h
  · rename_i x hx
    split at h
    · simp at h
    · rename_i xs' hxs
      simp only [Except.ok.injEq] at h
      exact ⟨x, xs', hx, hxs, h.symm⟩

theorem pc_patch_add_point_ok (c : PCPATCH) (p : PCPOINT) (x y : ℚ)
    (hro : c.readonly = false) (hs : p.schema = c.schema)
    (hx : pc_point_get_x p = Except.ok x) (hy : pc_point_get_y p = Except.ok y) :
    pc_patch_add_point c p =
      ({ c with
           npoints := c.npoints + 1,
           maxpoints := if c.npoints + 1 ≤ c.maxpoints then c.maxpoints
                        else max (2 * c.maxpoints) 1,
           data := c.data ++ p.data,
           xmin := if c.npoints = 0 then x else min c.xmin x,
           xmax := if c.npoints = 0 then x else max c.xmax x,
           ymin := if c.npoints = 0 then y else min c.ymin y,
           ymax := if c.npoints = 0 then y else max c.ymax y }, none) := by
  unfold pc_patch_add_point
  rw [hro, hs, hx, hy]
  simp

theorem add_point_fold : ∀ (qs : List PCPOINT) (xs ys : List ℚ) (c : PCPATCH),
    c.readonly = false → (∀ p ∈ qs, p.schema = c.schema) →
    pc_mapExc pc_point_get_x qs = Except.ok xs →
    pc_mapExc pc_point_get_y qs = Except.ok ys →
    0 < c.npoints →
    (qs.foldl (fun a p => (pc_patch_add_point a p).1) c).readonly = false ∧
    (qs.foldl (fun a p => (pc_patch_add_point a p).1) c).schema = c.schema ∧
    (qs.foldl (fun a p => (pc_patch_add_point a p).1) c).npoints = c.npoints + qs.length ∧
    (qs.foldl (fun a p => (pc_patch_add_point a p).1) c).xmin = xs.foldl min c.xmin ∧
    (qs.foldl (fun a p => (pc_patch_add_point a p).1) c).xmax = xs.foldl max c.xmax ∧
    (qs.foldl (fun a p => (pc_patch_add_point a p).1) c).ymin = ys.foldl min c.ymin ∧
    (qs.foldl (fun a p => (pc_patch_add_point a p).1) c).ymax = ys.foldl max c.ymax ∧
    (qs.foldl (fun a p => (pc_patch_add_point a p).1) c).data =
      c.data ++ (qs.map PCPOINT.data).flatten
  | [], xs, ys, c, hro, _, hxs, hys, hnp => by
    unfold pc_mapExc at hxs hys
    simp only [Except.ok.injEq] at hxs hys
    subst hxs
    subst hys
    simp [hro]
  | q :: qs, xs, ys, c, hro, hsch, hxs, hys, hnp => by
    obtain ⟨x, xs', hx, hxs', rfl⟩ := pc_mapExc_cons_ok hxs
    obtain ⟨y, ys', hy, hys', rfl⟩ := pc_mapExc_cons_ok hys
    have hq := hsch q (by simp)
    have hstep := pc_patch_add_point_ok c q x y hro hq hx hy
    have hne : ¬ (c.npoints = 0) := by omega
    rw [List.foldl_cons, hstep]
    simp only [if_neg hne]
    have hrec := add_point_fold qs xs' ys'
      { c with
          npoints := c.npoints + 1,
          maxpoints := if c.npoints + 1 ≤ c.maxpoints then c.maxpoints
                       else max (2 * c.maxpoints) 1,
          data := c.data ++ q.data,
          xmin := min c.xmin x, xmax := max c.xmax x,
          ymin := min c.ymin y, ymax := max c.ymax y }
      hro (by intro p hp; exact hsch p (by simp [hp])) hxs' hys' (by simp)
    obtain ⟨r1, r2, r3, r4, r5, r6, r7, r8⟩ := hrec
    refine ⟨r1, r2, ?_, ?_, ?_, ?_, ?_, ?_⟩
    · rw [r3]
      simp
      omega
    · rw [r4]
      simp [List.foldl_cons]
    · rw [r5]
      simp [List.foldl_cons]
    · rw [r6]
      simp [List.foldl_cons]
    · rw [r7]
      simp [List.foldl_cons]
    · rw [r8]
      simp [List.append_assoc]

/-- Claim C3: starting from the empty patch of pc_patch_make and
appending each point in order with pc_patch_add_point yields the same
final bounding box, point count, and point-data buffer as
pc_patch_make_from_points on the same (non-empty) sequence. -/
theorem incremental_build_equivalence (p0 : PCPOINT) (rest : List PCPOINT) (patch : PCPATCH)
    (h : pc_patch_make_from_points (p0 :: rest) = Except.ok patch) :
    (pc_patch_build p0.schema (p0 :: rest)).xmin = patch.xmin ∧
    (pc_patch_build p0.schema (p0 :: rest)).xmax = patch.xmax ∧
    (pc_patch_build p0.schema (p0 :: rest)).ymin = patch.ymin ∧
    (pc_patch_build p0.schema (p0 :: rest)).ymax = patch.ymax ∧
    (pc_patch_build p0.schema (p0 :: rest)).data = patch.data ∧
    (pc_patch_build p0.schema (p0 :: rest)).npoints = patch.npoints := by
  obtain ⟨x0, y0, xs, ys, hx0, hy0, hxs, hys, hsch, hpatch⟩ :=
    pc_patch_make_from_points_ok p0 rest patch h
  have hstep : pc_patch_add_point (pc_patch_make p0.schema) p0 =
      ({ readonly := false, npoints := 1, maxpoints := 1, schema := p0.schema,
         xmin := x0, xmax := x0, ymin := y0, ymax := y0, data := p0.data }, none) := by
    rw [pc_patch_add_point_ok (pc_patch_make p0.schema) p0 x0 y0 rfl rfl hx0 hy0]
    simp [pc_patch_make]
  unfold pc_patch_build
  rw [List.foldl_cons, hstep]
  have hrec := add_point_fold rest xs ys
    { readonly := false, npoints := 1, maxpoints := 1, schema := p0.schema,
      xmin := x0, xmax := x0, ymin := y0, ymax := y0, data := p0.data }
    rfl (fun p hp => hsch p hp) hxs hys (by simp)
  obtain ⟨r1, r2, r3, r4, r5, r6, r7, r8⟩ := hrec
  rw [hpatch]
  refine ⟨?_, ?_, ?_, ?_, ?_, ?_⟩
  · rw [r4]
  · rw [r5]
  · rw [r6]
  · rw [r7]
  · rw [r8]
    simp
  · rw [r3]
    simp
    omega

/-- Claim C3 witness: the incremental build over the points (1,2) and
(5,-3) agrees with the bulk build. -/
theorem incremental_build_equivalence_witness :
    (pc_patch_build (xyPoint 1 2).schema [xyPoint 1 2, xyPoint 5 (-3)]).xmin
      = c2PatchVal.xmin ∧
    (pc_patch_build (xyPoint 1 2).schema [xyPoint 1 2, xyPoint 5 (-3)]).xmax
      = c2PatchVal.xmax ∧
    (pc_patch_build (xyPoint 1 2).schema [xyPoint 1 2, xyPoint 5 (-3)]).ymin
      = c2PatchVal.ymin ∧
    (pc_patch_build (xyPoint 1 2).schema [xyPoint 1 2, xyPoint 5 (-3)]).ymax
      = c2PatchVal.ymax ∧
    (pc_patch_build (xyPoint 1 2).schema [xyPoint 1 2, xyPoint 5 (-3)]).data
      = c2PatchVal.data ∧
    (pc_patch_build (xyPoint 1 2).schema [xyPoint 1 2, xyPoint 5 (-3)]).npoints
      = c2PatchVal.npoints :=
  incremental_build_equivalence (xyPoint 1 2) [xyPoint 5 (-3)] c2PatchVal
    make_from_points_example

theorem find?_dim_unique : ∀ (ds : List PCDIMENSION) (d : PCDIMENSION) (r : ℕ),
    List.Pairwise pcDisjRel ds → d ∈ ds →
    d.byteoffset ≤ r → r < d.byteoffset + d.size →
    ds.find? (fun e => decide (e.byteoffset ≤ r ∧ r < e.byteoffset + e.size)) = some d
  | [], d, r, _, hd, _, _ => by simp at hd
  | e :: ds, d, r, hp, hd, h1, h2 => by
    rcases List.mem_cons.mp hd with rfl | hd2
    · rw [List.find?_cons_of_pos]
      simp only [decide_eq_true_eq]
      exact ⟨h1, h2⟩
    · rw [List.find?_cons_of_neg]
      · exact find?_dim_unique ds d r (List.pairwise_cons.mp hp).2 hd2 h1 h2
      · have hrel := (List.pairwise_cons.mp hp).1 d hd2
        simp only [decide_eq_true_eq, not_and, not_lt]
        intro h3
        rcases hrel with h4 | h4 <;> omega

theorem pc_flip_map_involution (s : PCSCHEMA) (npoints : ℕ) (i : ℕ)
    (hp : List.Pairwise pcDisjRel s.dims)
    (hb : ∀ d ∈ s.dims, 1 ≤ d.size ∧ d.byteoffset + d.size ≤ s.size)
    (hsz : 0 < s.size) :
    pc_flip_map s npoints (pc_flip_map s npoints i) = i ∧
    (i < npoints * s.size → pc_flip_map s npoints i < npoints * s.size) := by
  by_cases hi : i < npoints * s.size
  · cases hfind : s.dims.find? (fun e =>
        decide (e.byteoffset ≤ i % s.size ∧ i % s.size < e.byteoffset + e.size)) with
    | none =>
      have hm : pc_flip_map s npoints i = i := by
        rw [pc_flip_map, if_pos hi, hfind]
      refine ⟨?_, fun _ => ?_⟩
      · rw [hm, hm]
      · rw [hm]
        exact hi
    | some d =>
      have hmem := List.mem_of_find?_eq_some hfind
      have hpred := List.find?_some hfind
      simp only [decide_eq_true_eq] at hpred
      obtain ⟨hbd1, hbd2⟩ := hb d hmem
      have hrlt : i % s.size < s.size := Nat.mod_lt i hsz
      have hiqr : i / s.size * s.size + i % s.size = i := by
        rw [Nat.mul_comm]
        exact Nat.div_add_mod i s.size
      have hr2a : d.byteoffset ≤ 2 * d.byteoffset + d.size - 1 - i % s.size := by omega
      have hr2b : 2 * d.byteoffset + d.size - 1 - i % s.size < d.byteoffset + d.size := by
        omega
      have hr2lt : 2 * d.byteoffset + d.size - 1 - i % s.size < s.size := by omega
      have hjmod : (i / s.size * s.size + (2 * d.byteoffset + d.size - 1 - i % s.size))
          % s.size = 2 * d.byteoffset + d.size - 1 - i % s.size := by
        rw [Nat.mul_comm (i / s.size) s.size, Nat.mul_add_mod]
        exact Nat.mod_eq_of_lt hr2lt
      have hjdiv : (i / s.size * s.size + (2 * d.byteoffset + d.size - 1 - i % s.size))
          / s.size = i / s.size := by
        rw [Nat.mul_comm (i / s.size) s.size, Nat.mul_add_div hsz,
          Nat.div_eq_of_lt hr2lt, Nat.add_zero]
      have hqlt : i / s.size < npoints :=
        Nat.div_lt_of_lt_mul (by rw [Nat.mul_comm] at hi; exact hi)
      have hjlt : i / s.size * s.size + (2 * d.byteoffset + d.size - 1 - i % s.size)
          < npoints * s.size := by
        have h5 : i / s.size * s.size + (2 * d.byteoffset + d.size - 1 - i % s.size)
            < (i / s.size + 1) * s.size := by
          have h7 : (i / s.size + 1) * s.size = i / s.size * s.size + s.size := by ring
          omega
        have h6 : (i / s.size + 1) * s.size ≤ npoints * s.size :=
          Nat.mul_le_mul_right s.size hqlt
        omega
      have hm : pc_flip_map s npoints i =
          i / s.size * s.size + (2 * d.byteoffset + d.size - 1 - i % s.size) := by
        rw [pc_flip_map, if_pos hi, hfind]
      have hm2 : pc_flip_map s npoints
          (i / s.size * s.size + (2 * d.byteoffset + d.size - 1 - i % s.size)) = i := by
        rw [pc_flip_map, if_pos hjlt, hjmod,
          find?_dim_unique s.dims d _ hp hmem hr2a hr2b, hjdiv]
        dsimp only
        have hX : 2 * d.byteoffset + d.size - 1 -
            (2 * d.byteoffset + d.size - 1 - i % s.size) = i % s.size := by omega
        rw [hX]
        exact hiqr
      refine ⟨?_, fun _ => ?_⟩
      · rw [hm, hm2]
      · rw [hm]
        exact hjlt
  · have hm : pc_flip_map s npoints i = i := by
      rw [pc_flip_map, if_neg hi]
    exact ⟨by rw [hm, hm], fun h => absurd h hi⟩

theorem bytes_flip_endian_length (buf : List ℕ) (s : PCSCHEMA) (n : ℕ) :
    (bytes_flip_endian buf s n).length = buf.length := by
  simp [bytes_flip_endian]

theorem bytes_flip_endian_getD (buf : List ℕ) (s : PCSCHEMA) (n : ℕ) (j : ℕ)
    (hj : j < buf.length) :
    (bytes_flip_endian buf s n).getD j 0 = buf.getD (pc_flip_map s n j) 0 := by
  unfold bytes_flip_endian
  rw [List.getD_eq_getElem?_getD, List.getElem?_map]
  simp [List.getElem?_range, hj]

/-- Claim C5: for a valid schema and a buffer of npoints rows laid out
per that schema, normalizing endianness twice with the same schema and
count reproduces the original buffer bytes exactly. -/
theorem flip_endian_involution (buf : List ℕ) (s : PCSCHEMA) (npoints : ℕ)
    (hv : pc_schema_is_valid s = true) (hlen : buf.length = npoints * s.size) :
    bytes_flip_endian (bytes_flip_endian buf s npoints) s npoints = buf := by
  obtain ⟨_, hsz, h3, h4, _⟩ := pc_schema_is_valid_parts s hv
  have hb : ∀ d ∈ s.dims, 1 ≤ d.size ∧ d.byteoffset + d.size ≤ s.size :=
    fun d hd => ⟨(h3 d hd).1, (h3 d hd).2.2⟩
  have hL1 : (bytes_flip_endian (bytes_flip_endian buf s npoints) s npoints).length
      = buf.length := by
    rw [bytes_flip_endian_length, bytes_flip_endian_length]
  apply List.ext_getElem hL1
  intro j h1 h2
  have hjlen : j < buf.length := h2
  have hinv := pc_flip_map_involution s npoints j h4 hb hsz
  have hrange : pc_flip_map s npoints j < buf.length := by
    rw [hlen]
    exact hinv.2 (by rw [← hlen]; exact hjlen)
  rw [← List.getD_eq_getElem _ 0 h1, ← List.getD_eq_getElem _ 0 h2,
    bytes_flip_endian_getD _ s npoints j (by rw [bytes_flip_endian_length]; exact hjlen),
    bytes_flip_endian_getD buf s npoints _ hrange, hinv.1]

/-- Claim C5 witness: flipping a concrete 16-byte one-row buffer of
xySchema twice gives back the buffer. -/
theorem flip_endian_involution_witness :
    bytes_flip_endian (bytes_flip_endian
      [0, 1, 2, 3, 4, 5, 6, 7, 8, 9, 10, 11, 12, 13, 14, 15] xySchema 1) xySchema 1 =
      [0, 1, 2, 3, 4, 5, 6, 7, 8, 9, 10, 11, 12, 13, 14, 15] :=
  flip_endian_involution [0, 1, 2, 3, 4, 5, 6, 7, 8, 9, 10, 11, 12, 13, 14, 15]
    xySchema 1 (by decide) (by decide)

/-- Claim C10: bytes_flip_endian does not modify its input buffer: at the
allocation level the operation appends a freshly computed output buffer,
leaves every live buffer — in particular the input — untouched, and
returns a new index distinct from the input's. -/
theorem flip_endian_no_input_mutation (st : List (List ℕ)) (idx : ℕ) (s : PCSCHEMA)
    (npoints : ℕ) (hidx : idx < st.length) :
    (∀ j, j < st.length →
      ((bytes_flip_endian_alloc st idx s npoints).1).getD j [] = st.getD j []) ∧
    (bytes_flip_endian_alloc st idx s npoints).2 ≠ idx ∧
    ((bytes_flip_endian_alloc st idx s npoints).1).getD
        (bytes_flip_endian_alloc st idx s npoints).2 [] =
      bytes_flip_endian (st.getD idx []) s npoints := by
  refine ⟨?_, ?_, ?_⟩
  · intro j hj
    unfold bytes_flip_endian_alloc
    simp [List.getD_eq_getElem?_getD, List.getElem?_append, hj]
  · unfold bytes_flip_endian_alloc
    omega
  · unfold bytes_flip_endian_alloc
    simp [List.getD_eq_getElem?_getD, List.getElem?_append_right (le_refl st.length)]

/-- Claim C10 witness: on a concrete two-buffer store, flipping buffer 0
leaves both live buffers unchanged and appends the flipped copy at a
fresh index. -/
theorem flip_endian_no_input_mutation_witness :
    (∀ j, j < [[1, 2], [3]].length →
      ((bytes_flip_endian_alloc [[1, 2], [3]] 0 xySchema 0).1).getD j [] =
        [[1, 2], [3]].getD j []) ∧
    (bytes_flip_endian_alloc [[1, 2], [3]] 0 xySchema 0).2 ≠ 0 ∧
    ((bytes_flip_endian_alloc [[1, 2], [3]] 0 xySchema 0).1).getD
        (bytes_flip_endian_alloc [[1, 2], [3]] 0 xySchema 0).2 [] =
      bytes_flip_endian ([[1, 2], [3]].getD 0 []) xySchema 0 :=
  flip_endian_no_input_mutation [[1, 2], [3]] 0 xySchema 0 (by decide)
